import Mathlib

/-!
Verification development for the Stroke geometry engine of the `ink` library
(`src/ink.ts` together with the vector primitives of `src/vec.ts`).

The embedding is shallow: JavaScript numbers become real numbers, arrays
become lists (appended at the end, as the source only ever pushes), the
`pending` object becomes an association list from indices to raw-point
batches, and the one fallible operation (`insert`, which can throw a
`RangeError`) returns the resulting stroke state together with an optional
error message.  The source constant `C.Smoothing` is `0` in `src/ink.ts`,
so `push` consumes the raw input point directly (the level-1 and level-N
smoothing branches are dead code there and the `queue` field is never
touched).
-/

namespace Ink

open Classical

/-- A 2D vector (`Vec` of `src/vec.ts`). -/
structure Vec where
  x : ℝ
  y : ℝ

/-- Raw input point (`RawPoint` of `src/ink.ts`): position plus pressure `r`. -/
structure RawPoint where
  x : ℝ
  y : ℝ
  r : ℝ

/-- A stored point with its context information (`Point` of `src/ink.ts`):
position `p`, radius/pressure `r`, inverted direction `v` (`previous - current`,
a dummy value on the first point), distance `d` to the previous stored point,
and running length `l`. -/
structure Point where
  p : Vec
  r : ℝ
  v : Vec
  d : ℝ
  l : ℝ

/-- The function `Math.hypot` over exact reals. -/
noncomputable def hypot (x y : ℝ) : ℝ := Real.sqrt (x ^ 2 + y ^ 2)

/-- Function `norm` of `src/vec.ts`: divide by the hypotenuse. -/
noncomputable def vnorm (a : Vec) : Vec :=
  ⟨a.x / hypot a.x a.y, a.y / hypot a.x a.y⟩

/-- Function `add` of `src/vec.ts`. -/
noncomputable def vadd (a b : Vec) : Vec := ⟨a.x + b.x, a.y + b.y⟩

/-- Function `sub` of `src/vec.ts`. -/
noncomputable def vsub (a b : Vec) : Vec := ⟨a.x - b.x, a.y - b.y⟩

/-- Function `mul` of `src/vec.ts` (scalar multiple). -/
noncomputable def vmul (a : Vec) (n : ℝ) : Vec := ⟨a.x * n, a.y * n⟩

/-- Function `per` of `src/vec.ts`: perpendicular `(x, y) ↦ (y, -x)`. -/
noncomputable def vper (a : Vec) : Vec := ⟨a.y, -a.x⟩

/-- Function `neg` of `src/vec.ts`. -/
noncomputable def vneg (a : Vec) : Vec := ⟨-a.x, -a.y⟩

/-- Function `dot` of `src/vec.ts`. -/
noncomputable def vdot (a b : Vec) : ℝ := a.x * b.x + a.y * b.y

/-- Function `lerp` of `src/vec.ts`: `a + (b - a) * t`. -/
noncomputable def vlerp (a b : Vec) (t : ℝ) : Vec := vadd a (vmul (vsub b a) t)

/-- Function `proj` of `src/vec.ts`: `a + b * c`. -/
noncomputable def vproj (a b : Vec) (c : ℝ) : Vec := vadd a (vmul b c)

/-- Function `rot` of `src/vec.ts`: rotate `a` around the center `c` by angle `r`. -/
noncomputable def vrot (a c : Vec) (r : ℝ) : Vec :=
  let s := Real.sin r
  let co := Real.cos r
  let px := a.x - c.x
  let py := a.y - c.y
  ⟨px * co - py * s + c.x, px * s + py * co + c.y⟩

/-- Constant `C.SkipDistance` of `src/ink.ts`. -/
noncomputable def SkipDistance : ℝ := 4

/-- Constant `C.MinDistance` of `src/ink.ts`. -/
noncomputable def MinDistance : ℝ := 1000

/-- Constant `C.CoolingDown` of `src/ink.ts`. -/
def CoolingDown : ℕ := 1

/-- Constant `C.TailDistance` of `src/ink.ts`. -/
noncomputable def TailDistance : ℝ := 0.4

/-- Constant `C.PI` of `src/ink.ts` (the source's slightly-enlarged π constant). -/
noncomputable def PIC : ℝ := 3.1416926535897933

/-- Constant `C.PressureChangeSpeed` of `src/ink.ts`. -/
noncomputable def PressureChangeSpeed : ℝ := 0.3

/-- Constant `C.DotSize` of `src/ink.ts`. -/
noncomputable def DotSize : ℝ := 0.36

/-- Constant `C.MinRadius` of `src/ink.ts`. -/
noncomputable def MinRadius : ℝ := 0.75

/-- The stroke state (`Stroke` of `src/ink.ts`): stored points, section
boundaries (always starting out as `[0]`), the pending out-of-order insert
buffer, and the running length. -/
structure Stroke where
  points : List Point
  sections : List ℕ
  pending : List (ℕ × List RawPoint)
  length : ℝ

/-- Default point used to give JavaScript's `points[i]` indexing a total
meaning; every retained access in the source is in bounds. -/
noncomputable def pt0 : Point := ⟨⟨0, 0⟩, 0, ⟨0, 0⟩, 0, 0⟩

/-- Indexing `points[i]` on the stored point list. -/
noncomputable def getP (ps : List Point) (i : ℕ) : Point := ps.getD i pt0

/-- In-place update of the last element of the point array (the source
mutates `points[points.length - 1]`). -/
noncomputable def setLastF : List Point → (Point → Point) → List Point
  | [], _ => []
  | [a], f => [f a]
  | a :: b :: rest, f => a :: setLastF (b :: rest) f

/-- Lookup of `this.pending[k]` (an empty batch is still a present entry:
JavaScript arrays are truthy). -/
def lookupPending (l : List (ℕ × List RawPoint)) (k : ℕ) : Option (List RawPoint) :=
  (l.find? (fun e => e.1 == k)).map (fun e => e.2)

/-- Deletion `delete this.pending[k]`. -/
def erasePending (l : List (ℕ × List RawPoint)) (k : ℕ) : List (ℕ × List RawPoint) :=
  l.filter (fun e => !(e.1 == k))

/-- Assignment `this.pending[k] = v` (overwrites an existing entry at the same key). -/
def setPending (s : Stroke) (k : ℕ) (v : List RawPoint) : Stroke :=
  { s with pending := (k, v) :: erasePending s.pending k }

/-- The scanning loop of `updateSections` of `src/ink.ts`: starting at `i`,
push a boundary at every index whose point is closer than `MinDistance` to its
predecessor and whose direction reverses (negative dot product); after a push
the loop index advances by `CoolingDown` extra steps. -/
noncomputable def scanSections (ps : List Point) (i : ℕ) (acc : List ℕ) : List ℕ :=
  if h : i < ps.length then
    if (getP ps i).d < MinDistance ∧ vdot (getP ps i).v (getP ps (i - 1)).v < 0 then
      scanSections ps (i + CoolingDown + 1) (acc ++ [i])
    else
      scanSections ps (i + 1) acc
  else acc
termination_by ps.length - i
decreasing_by
  · simp only [CoolingDown]; omega
  · omega

/-- Method `updateSections` of `src/ink.ts`: resume the scan just after the last
known boundary (the first two points share the same vector and are skipped
when no boundary besides `0` exists yet). -/
noncomputable def updateSections (s : Stroke) : Stroke :=
  { s with
    sections :=
      scanSections s.points
        (if 1 < s.sections.length then s.sections.getLastD 0 + CoolingDown else 2)
        s.sections }

/-- Method `updateLength` of `src/ink.ts`. -/
noncomputable def updateLength (s : Stroke) (d : ℝ) : Stroke :=
  { s with length := s.length + d }

/-- Method `push` of `src/ink.ts` (with `C.Smoothing = 0`, so `curr = p`): append a
point unless it lands within `SkipDistance` of running length since the last
stored point, in which case only the stored point's pressure is raised to the
maximum of the two. -/
noncomputable def push (s : Stroke) (p : RawPoint) (skipSections : Bool) : Stroke :=
  match s.points.getLast? with
  | some prev_ =>
      let curr := p
      let d := hypot (curr.x - prev_.p.x) (curr.y - prev_.p.y)
      let s1 := updateLength s d
      if s1.length - prev_.l < SkipDistance then
        { s1 with points := setLastF s1.points (fun q => { q with r := max q.r curr.r }) }
      else
        let s2 := { s1 with
          points := s1.points ++
            [⟨⟨curr.x, curr.y⟩, curr.r, vnorm (vsub prev_.p ⟨curr.x, curr.y⟩), d, s1.length⟩] }
        if skipSections then s2 else updateSections s2
  | none => { s with points := s.points ++ [⟨⟨p.x, p.y⟩, p.r, ⟨1, 1⟩, 0, 0⟩] }

/-- The `raw.forEach(p => this.push(p, true))` part of `insert`. -/
noncomputable def pushAll (s : Stroke) (raw : List RawPoint) : Stroke :=
  raw.foldl (fun t p => push t p true) s

theorem push_pending (s : Stroke) (p : RawPoint) (b : Bool) :
    (push s p b).pending = s.pending := by
  unfold push
  cases s.points.getLast? with
  | none => rfl
  | some prev_ =>
      simp only
      split
      · rfl
      · split
        · rfl
        · rfl

theorem pushAll_pending (s : Stroke) (raw : List RawPoint) :
    (pushAll s raw).pending = s.pending := by
  induction raw generalizing s with
  | nil => rfl
  | cons p rest ih =>
      simp only [pushAll, List.foldl_cons]
      rw [show (rest.foldl (fun t p => push t p true) (push s p true)) =
        pushAll (push s p true) rest from rfl]
      rw [ih, push_pending]

theorem erase_lt {l : List (ℕ × List RawPoint)} {k : ℕ} {v : List RawPoint}
    (h : lookupPending l k = some v) : (erasePending l k).length < l.length := by
  induction l with
  | nil => simp [lookupPending] at h
  | cons a rest ih =>
      by_cases hk : (a.1 == k) = true
      · simp only [erasePending, List.filter_cons, hk, Bool.not_true, List.length_cons]
        calc (List.filter (fun e => !(e.1 == k)) rest).length
            ≤ rest.length := List.length_filter_le _ _
          _ < rest.length + 1 := Nat.lt_succ_self _
      · have h' : lookupPending rest k = some v := by
          simp only [lookupPending, List.find?_cons, hk] at h ⊢
          exact h
        simp only [erasePending, List.filter_cons, hk, Bool.not_false, List.length_cons]
        exact Nat.succ_lt_succ (ih h')

/-- Method `insert` of `src/ink.ts`.  Returns the new stroke state together with the
error message of the thrown `RangeError` (if any); the source throws before
mutating anything, so on error the state is the input state. -/
noncomputable def insert (s : Stroke) (fromIdx : ℕ) (raw : List RawPoint) :
    Stroke × Option String :=
  if fromIdx = s.points.length then
    let s1 := pushAll s raw
    match h : lookupPending s1.pending s1.points.length with
    | some raw2 =>
        insert { s1 with pending := erasePending s1.pending s1.points.length }
          s1.points.length raw2
    | none => (updateSections s1, none)
  else if s.points.length < fromIdx then
    (setPending s fromIdx raw, none)
  else
    (s, some ("Position " ++ toString fromIdx ++ " conflicts with existing points"))
termination_by s.pending.length
decreasing_by
  calc (erasePending (pushAll s raw).pending (pushAll s raw).points.length).length
      < (pushAll s raw).pending.length := erase_lt h
    _ = s.pending.length := by rw [pushAll_pending]

/-- A sequence of plain (section-updating) `push` calls. -/
noncomputable def plainPushes (s : Stroke) (raw : List RawPoint) : Stroke :=
  raw.foldl (fun t p => push t p false) s

/-- The loop state of `Stroke.create` of `src/ink.ts`: accumulated points,
the previous retained raw point, the running `length` and `last_length`. -/
structure CreateSt where
  points : List Point
  prev : RawPoint
  clen : ℝ
  lastLen : ℝ

/-- One iteration of the loop in `Stroke.create`: note that on a skip the
stored pressure is overwritten with the candidate's pressure (`= curr.r`),
unlike `push` which takes the maximum. -/
noncomputable def createStep (st : CreateSt) (curr : RawPoint) : CreateSt :=
  let d := hypot (curr.x - st.prev.x) (curr.y - st.prev.y)
  let len := st.clen + d
  if len - st.lastLen < SkipDistance then
    { st with clen := len, points := setLastF st.points (fun q => { q with r := curr.r }) }
  else
    { points := st.points ++
        [⟨⟨curr.x, curr.y⟩, curr.r, vnorm (vsub ⟨st.prev.x, st.prev.y⟩ ⟨curr.x, curr.y⟩), d, len⟩],
      prev := curr, clen := len, lastLen := len }

/-- The `Stroke` constructor: fresh `sections = [0]` and empty `pending`,
followed by the constructor's `updateSections()` call. -/
noncomputable def mkStroke (points : List Point) (len : ℝ) : Stroke :=
  updateSections { points := points, sections := [0], pending := [], length := len }

/-- Static method `Stroke.create` of `src/ink.ts`. -/
noncomputable def create (raw : List RawPoint) : Stroke :=
  match raw with
  | [] => mkStroke [] 0
  | p0 :: rest =>
      let st := rest.foldl createStep ⟨[⟨⟨p0.x, p0.y⟩, p0.r, ⟨1, 1⟩, 0, 0⟩], p0, 0, 0⟩
      mkStroke st.points st.clen

/-- Method `toJSON` of `src/ink.ts`: the `[x, y, r]` triple of every stored point. -/
noncomputable def toJSON (s : Stroke) : List (ℝ × ℝ × ℝ) :=
  s.points.map (fun pt => (pt.p.x, pt.p.y, pt.r))

/-- Method `fromJSON` of `src/ink.ts` on well-formed input: rebuild via `create`. -/
noncomputable def fromJSON (json : List (ℝ × ℝ × ℝ)) : Stroke :=
  create (json.map (fun a => ⟨a.1, a.2.1, a.2.2⟩))

/-- The getter `empty` of `src/ink.ts`. -/
def Stroke.empty (s : Stroke) : Bool := s.points.length == 0

/-- The getter `dot` of `src/ink.ts`. -/
def Stroke.dot (s : Stroke) : Bool := s.points.length == 1

/-- Number of iterations of `for (let t = t0; t <= limit; t += step)` over
exact reals, for a positive `step`. -/
noncomputable def loopCountLe (t0 step limit : ℝ) : ℕ :=
  if t0 ≤ limit then (⌊(limit - t0) / step⌋).toNat + 1 else 0

/-- Number of iterations of `for (let t = t0; t < limit; t += step)` over
exact reals, for a positive `step`. -/
noncomputable def loopCountLt (t0 step limit : ℝ) : ℕ :=
  if t0 < limit then (⌈(limit - t0) / step⌉).toNat else 0

/-- The successive values of `t` in `for (let t = t0; t <= limit; t += step)`. -/
noncomputable def loopTsLe (t0 step limit : ℝ) : List ℝ :=
  (List.range (loopCountLe t0 step limit)).map (fun (k : ℕ) => t0 + (k : ℝ) * step)

/-- The successive values of `t` in `for (let t = t0; t < limit; t += step)`. -/
noncomputable def loopTsLt (t0 step limit : ℝ) : List ℝ :=
  (List.range (loopCountLt t0 step limit)).map (fun (k : ℕ) => t0 + (k : ℝ) * step)

/-- Method `Point.dup` of `src/ink.ts`: shallow copy with the radius changed. -/
noncomputable def Point.dup (pt : Point) (r : ℝ) : Point := { pt with r := r }

/-- The dot branch of `outline` of `src/ink.ts`: a full circle of `t`-steps
`0, 1/13, …, ≤ 2` (times the source's `PI` constant) around the lone point,
whose first vertex is the point offset along `per(neg(v))` by
`size * DotSize * r`. -/
noncomputable def dotCase (pt : Point) (size : ℝ) : List Vec :=
  let direction := vper (vneg pt.v)
  let start := vproj pt.p direction (size * DotSize * pt.r)
  (loopTsLe 0 (1 / 13) 2).map (fun t => vrot start pt.p (PIC * t))

/-- The thin-tail adjustment at the head of the multi-point branch of
`outline`: on the final (open) section, when the second-to-last point looks
like a mouse event (pressure exactly `0.5` or `1.0`) and the last segment is
long enough, replace the pressures of the last three points of the local
slice by tapered copies and suppress the end cap. -/
noncomputable def tailAdjust (size : ℝ) (endNone : Bool) (pts : List Point) :
    List Point × Bool :=
  let len := pts.length
  if endNone = true ∧ 2 ≤ len then
    let p2 := getP pts (len - 2)
    if (p2.r = 0.5 ∨ p2.r = 1.0) ∧ TailDistance * size < p2.d then
      let a := pts.set (len - 1) ((getP pts (len - 1)).dup 0.05)
      let b := a.set (len - 2) (p2.dup (max 0.1 (p2.r - 0.3)))
      let c := if 3 ≤ len then
          b.set (len - 3) ((getP b (len - 3)).dup (max 0.1 ((getP b (len - 3)).r - 0.1)))
        else b
      (c, false)
    else (pts, true)
  else (pts, true)

/-- Loop state of the pressure-simulation loop of `outline`. -/
structure OutAcc where
  left : List Vec
  right : List Vec
  radius : ℝ
  prevPressure : ℝ

/-- Indexing in `rightPoints[0]` style on a local vector array. -/
noncomputable def getV (l : List Vec) (i : ℕ) : Vec := l.getD i ⟨0, 0⟩

/-- One iteration of the pressure-simulation loop of `outline`. -/
noncomputable def outStep (size : ℝ) (pts : List Point) (len : ℕ)
    (acc : OutAcc) (i : ℕ) : OutAcc :=
  let pt := getP pts i
  let d := if i = 0 then 0 else pt.d
  let v := if i = 0 then (if i < len - 1 then (getP pts (i + 1)).v else pt.v) else pt.v
  let sp := min 1 (d / size)
  let rp := min 1 (1 - sp)
  let pressure := min 1 (acc.prevPressure + (rp - acc.prevPressure) * (sp * PressureChangeSpeed))
  let nextVector := (if i < len - 1 then getP pts (i + 1) else getP pts i).v
  let nextDot := if i < len - 1 then vdot v nextVector else 1
  let radius := max (size * (0.5 * pressure)) MinRadius
  let offset := vmul (vper (vlerp nextVector v nextDot)) radius
  { left := acc.left ++ [vsub pt.p offset],
    right := acc.right ++ [vadd pt.p offset],
    radius := radius,
    prevPressure := pt.r }

/-- The multi-point branch of `outline`: simulate pressure along the slice,
produce the left/right chains, then close the ring with the end cap (unless
the tail policy suppressed it) and the start cap. -/
noncomputable def multiCase (size : ℝ) (endNone : Bool) (pts0 : List Point) : List Vec :=
  let ta := tailAdjust size endNone pts0
  let pts := ta.1
  let drawEndCap := ta.2
  let len := pts.length
  let acc := (List.range len).foldl (outStep size pts len) ⟨[], [], size, (getP pts 0).r⟩
  let startCap := (loopTsLe (1 / 13) (1 / 13) 1).map
      (fun t => vrot (getV acc.right 0) (getP pts 0).p (PIC * t))
  let endCap := if drawEndCap then
      let lastPoint := getP pts (len - 1)
      let direction := vper (vneg lastPoint.v)
      let start := vproj lastPoint.p direction acc.radius
      (loopTsLt (1 / 13) (1 / 13) 1).map (fun t => vrot start lastPoint.p (PIC * t))
    else []
  acc.left ++ endCap ++ acc.right.reverse ++ startCap

/-- JavaScript `Array.prototype.slice(start, end?)` (the `end` may be absent,
meaning "to the end of the array"). -/
def sliceJS {α : Type} (l : List α) (start : ℕ) : Option ℕ → List α
  | none => l.drop start
  | some e => (l.take e).drop start

/-- Method `outline` of `src/ink.ts`: resolve the section end as the first boundary
strictly greater than `fromIdx`, slice the points (keeping one extra head
point when `fromIdx > 0`), and dispatch on the slice size. -/
noncomputable def outline (s : Stroke) (fromIdx : ℕ) (size : ℝ) : List Vec :=
  let endIdx := s.sections.find? (fun e => decide (fromIdx < e))
  let pts := sliceJS s.points (if 0 < fromIdx then fromIdx - 1 else fromIdx) endIdx
  if 1 < pts.length then multiCase size endIdx.isNone pts
  else if pts.length = 1 then dotCase (getP pts 0) size
  else []

/-- Stateful reading of `outline`: the method's only assignments target local
arrays and the local `this.points.slice(...)` copy (JavaScript `slice` returns
a fresh array, and `dup` copies a point before changing its radius), so the
stroke state after the call is the state before it.  This definition records
the final state alongside the produced outline. -/
noncomputable def outlineRun (s : Stroke) (fromIdx : ℕ) (size : ℝ) : List Vec × Stroke :=
  (outline s fromIdx size, s)

/-! ### Evaluation lemmas for the operations -/

theorem hypot_nonneg (x y : ℝ) : 0 ≤ hypot x y := Real.sqrt_nonneg _

theorem hypot_x (x : ℝ) : hypot x 0 = |x| := by
  rw [hypot]
  norm_num [Real.sqrt_sq_eq_abs]

theorem scan_stop {ps : List Point} {i : ℕ} {acc : List ℕ}
    (h : ¬ i < ps.length) : scanSections ps i acc = acc := by
  rw [scanSections]
  simp [h]

theorem scan_split {ps : List Point} {i : ℕ} {acc : List ℕ}
    (h : i < ps.length)
    (hc : (getP ps i).d < MinDistance ∧ vdot (getP ps i).v (getP ps (i - 1)).v < 0) :
    scanSections ps i acc = scanSections ps (i + CoolingDown + 1) (acc ++ [i]) := by
  rw [scanSections]
  simp [h, hc]

theorem scan_skip {ps : List Point} {i : ℕ} {acc : List ℕ}
    (h : i < ps.length)
    (hc : ¬ ((getP ps i).d < MinDistance ∧ vdot (getP ps i).v (getP ps (i - 1)).v < 0)) :
    scanSections ps i acc = scanSections ps (i + 1) acc := by
  rw [scanSections]
  simp only [h, dif_pos]
  rw [if_neg hc]

theorem push_first {s : Stroke} (p : RawPoint) (b : Bool) (h : s.points = []) :
    push s p b = { s with points := [⟨⟨p.x, p.y⟩, p.r, ⟨1, 1⟩, 0, 0⟩] } := by
  unfold push
  rw [show s.points.getLast? = none by rw [h]; rfl]
  simp [h]

theorem push_skip {s : Stroke} {p : RawPoint} {prev : Point} (b : Bool)
    (h : s.points.getLast? = some prev)
    (hlt : s.length + hypot (p.x - prev.p.x) (p.y - prev.p.y) - prev.l < SkipDistance) :
    push s p b =
      { s with
        length := s.length + hypot (p.x - prev.p.x) (p.y - prev.p.y),
        points := setLastF s.points (fun q => { q with r := max q.r p.r }) } := by
  unfold push
  rw [h]
  simp only [updateLength]
  rw [if_pos hlt]

theorem push_keep {s : Stroke} {p : RawPoint} {prev : Point} (b : Bool)
    (h : s.points.getLast? = some prev)
    (hge : ¬ s.length + hypot (p.x - prev.p.x) (p.y - prev.p.y) - prev.l < SkipDistance) :
    push s p b =
      (if b then id else updateSections)
        { s with
          length := s.length + hypot (p.x - prev.p.x) (p.y - prev.p.y),
          points := s.points ++
            [⟨⟨p.x, p.y⟩, p.r, vnorm (vsub prev.p ⟨p.x, p.y⟩),
              hypot (p.x - prev.p.x) (p.y - prev.p.y),
              s.length + hypot (p.x - prev.p.x) (p.y - prev.p.y)⟩] } := by
  unfold push
  rw [h]
  simp only [updateLength]
  rw [if_neg hge]
  cases b <;> simp

theorem insert_conflict {s : Stroke} {fromIdx : ℕ} (raw : List RawPoint)
    (h : fromIdx < s.points.length) :
    insert s fromIdx raw =
      (s, some ("Position " ++ toString fromIdx ++ " conflicts with existing points")) := by
  rw [insert]
  rw [if_neg (by omega), if_neg (by omega)]

theorem insert_buffer {s : Stroke} {fromIdx : ℕ} (raw : List RawPoint)
    (h : s.points.length < fromIdx) :
    insert s fromIdx raw = (setPending s fromIdx raw, none) := by
  rw [insert]
  rw [if_neg (by omega), if_pos h]

theorem insert_at_len {s : Stroke} (raw : List RawPoint)
    (h : lookupPending (pushAll s raw).pending (pushAll s raw).points.length = none) :
    insert s s.points.length raw = (updateSections (pushAll s raw), none) := by
  rw [insert]
  rw [if_pos rfl]
  simp only
  split
  next h2 => rw [h] at h2; exact absurd h2 (by simp)
  next => rfl

theorem insert_at_len_flush {s : Stroke} (raw : List RawPoint) {raw2 : List RawPoint}
    (h : lookupPending (pushAll s raw).pending (pushAll s raw).points.length = some raw2) :
    insert s s.points.length raw =
      insert
        { pushAll s raw with
          pending := erasePending (pushAll s raw).pending (pushAll s raw).points.length }
        (pushAll s raw).points.length raw2 := by
  rw [insert]
  rw [if_pos rfl]
  simp only
  split
  next r hsome => rw [h] at hsome; cases hsome; rfl
  next hnone => exact absurd (h.symm.trans hnone) (by simp)

theorem setLastF_length (l : List Point) (f : Point → Point) :
    (setLastF l f).length = l.length := by
  induction l with
  | nil => rfl
  | cons a t ih =>
      cases t with
      | nil => rfl
      | cons b t' => simpa [setLastF] using ih

theorem create_nil : create [] = ⟨[], [0], [], 0⟩ := by
  unfold create mkStroke updateSections
  rw [if_neg (by simp), scan_stop (by simp)]

theorem create_single (p : RawPoint) :
    create [p] = ⟨[⟨⟨p.x, p.y⟩, p.r, ⟨1, 1⟩, 0, 0⟩], [0], [], 0⟩ := by
  unfold create
  simp only [List.foldl_nil]
  unfold mkStroke updateSections
  rw [if_neg (by simp), scan_stop (by simp)]

theorem create_two_skip (p q : RawPoint)
    (h : hypot (q.x - p.x) (q.y - p.y) < SkipDistance) :
    create [p, q] = ⟨[⟨⟨p.x, p.y⟩, q.r, ⟨1, 1⟩, 0, 0⟩], [0], [],
      hypot (q.x - p.x) (q.y - p.y)⟩ := by
  unfold create
  simp only [List.foldl_cons, List.foldl_nil]
  unfold createStep
  simp only
  rw [if_pos (by simpa using h)]
  simp only [setLastF]
  unfold mkStroke updateSections
  rw [if_neg (by simp), scan_stop (by simp)]
  simp

/-! ### C2: `insert` fails exactly on index conflict, leaving the state alone -/

theorem insert_ok_of_ge (n : ℕ) :
    ∀ (s : Stroke) (fromIdx : ℕ) (raw : List RawPoint),
      s.pending.length ≤ n → s.points.length ≤ fromIdx →
      (insert s fromIdx raw).2 = none := by
  induction n with
  | zero =>
      intro s fromIdx raw hp hge
      rcases Nat.eq_or_lt_of_le hge with he | hlt
      · subst he
        have hnilp : s.pending = [] := List.length_eq_zero.mp (Nat.le_zero.mp hp)
        have hlk : lookupPending (pushAll s raw).pending (pushAll s raw).points.length
            = none := by
          rw [pushAll_pending, hnilp]; rfl
        rw [insert_at_len raw hlk]
      · rw [insert_buffer raw hlt]
  | succ n ih =>
      intro s fromIdx raw hp hge
      rcases Nat.eq_or_lt_of_le hge with he | hlt
      · subst he
        cases hlk : lookupPending (pushAll s raw).pending (pushAll s raw).points.length with
        | none => rw [insert_at_len raw hlk]
        | some raw2 =>
            rw [insert_at_len_flush raw hlk]
            apply ih
            · have h1 := erase_lt hlk
              have h2 : (pushAll s raw).pending.length = s.pending.length := by
                rw [pushAll_pending]
              simp only
              omega
            · simp only
              exact le_rfl
      · rw [insert_buffer raw hlt]

/-- C2: `insert` with `fromIdx` strictly below the stored point count fails
with the index-conflict range error and leaves the stroke state exactly as it
was; and `insert` fails in no other case (the result carries no error iff
`fromIdx` is at least the point count).  `push` is a total function of the
model and never fails. -/
theorem insert_index_conflict_only (s : Stroke) (fromIdx : ℕ) (raw : List RawPoint) :
    (fromIdx < s.points.length →
      insert s fromIdx raw =
        (s, some ("Position " ++ toString fromIdx ++ " conflicts with existing points"))) ∧
    ((insert s fromIdx raw).2 = none ↔ s.points.length ≤ fromIdx) := by
  refine ⟨fun h => insert_conflict raw h, ?_, ?_⟩
  · intro h
    by_contra hlt
    push_neg at hlt
    rw [insert_conflict raw hlt] at h
    simp at h
  · intro hge
    exact insert_ok_of_ge s.pending.length s fromIdx raw le_rfl hge

/-- Witness for C2 at a concrete one-point stroke: inserting at index `0`
conflicts and returns the untouched stroke with the error. -/
theorem insert_index_conflict_only_witness :
    0 < (create [⟨0, 0, 1/2⟩]).points.length ∧
    insert (create [⟨0, 0, 1/2⟩]) 0 [⟨5, 5, 1⟩] =
      (create [⟨0, 0, 1/2⟩],
        some ("Position " ++ toString 0 ++ " conflicts with existing points")) :=
  ⟨by rw [create_single]; simp,
   (insert_index_conflict_only (create [⟨0, 0, 1/2⟩]) 0 [⟨5, 5, 1⟩]).1
     (by rw [create_single]; simp)⟩

/-! ### C4: how `push` updates `length` -/

theorem updateSections_length (s : Stroke) : (updateSections s).length = s.length := rfl

/-- C4 amended: across `push` calls `length` is monotonically non-decreasing,
but it increases by the candidate's distance to the last stored point on
EVERY non-first push — also when the candidate is discarded by the
skip-distance policy (`updateLength` runs before the skip check), so `length`
is the total of all candidate distances, not only the retained ones. -/
theorem push_length_additive (s : Stroke) (p : RawPoint) (b : Bool) :
    (push s p b).length = s.length +
      (match s.points.getLast? with
       | none => 0
       | some prev => hypot (p.x - prev.p.x) (p.y - prev.p.y)) ∧
    s.length ≤ (push s p b).length := by
  cases hl : s.points.getLast? with
  | none =>
      have hnil : s.points = [] := by
        cases hps : s.points with
        | nil => rfl
        | cons a t => rw [hps] at hl; simp [List.getLast?_concat] at hl
      rw [push_first p b hnil]
      simp
  | some prev =>
      have hn := hypot_nonneg (p.x - prev.p.x) (p.y - prev.p.y)
      by_cases hsk : s.length + hypot (p.x - prev.p.x) (p.y - prev.p.y) - prev.l < SkipDistance
      · rw [push_skip b hl hsk]
        exact ⟨rfl, by simp only; linarith⟩
      · rw [push_keep b hl hsk]
        cases b <;>
          exact ⟨rfl, by
            show s.length ≤ s.length + hypot (p.x - prev.p.x) (p.y - prev.p.y)
            linarith⟩

/-- Modelled from the spec's words (for comparison with the code): "the sum
of the consecutive distances between retained points only" — each stored
point after the first carries its distance `d` to the previous stored point. -/
noncomputable def specRetainedSum (s : Stroke) : ℝ :=
  ((s.points.drop 1).map Point.d).sum

/-- C4 counterexample: a candidate 3 units away from the lone stored point is
discarded by the skip policy, yet `length` becomes 3 while the sum of
consecutive distances between retained points is 0. -/
theorem length_ne_retained_sum :
    (push (create [⟨0, 0, 1/2⟩]) ⟨3, 0, 1/2⟩ false).length ≠
      specRetainedSum (push (create [⟨0, 0, 1/2⟩]) ⟨3, 0, 1/2⟩ false) := by
  rw [create_single]
  rw [push_skip false (by rfl) (by norm_num [hypot_x, SkipDistance])]
  simp only [specRetainedSum, setLastF]
  norm_num [hypot_x]

/-! ### C3: skip-distance pressure folding -/

/-- C3 amended: when a pushed candidate lands within the skip distance, no
point is appended and the last stored point's pressure becomes the `max` of
its pressure and the candidate's; two raw points closer than the threshold
fed via `push` leave one point carrying `max` of the two pressures — but fed
via `Stroke.create` the lone point carries the SECOND point's pressure (the
`create` loop overwrites instead of taking `max`). -/
theorem skip_fold_pressure :
    (∀ (s : Stroke) (p : RawPoint) (b : Bool) (prev : Point),
      s.points.getLast? = some prev →
      s.length + hypot (p.x - prev.p.x) (p.y - prev.p.y) - prev.l < SkipDistance →
      (push s p b).points = setLastF s.points (fun q => { q with r := max q.r p.r }) ∧
      (push s p b).points.length = s.points.length) ∧
    (∀ p q : RawPoint, hypot (q.x - p.x) (q.y - p.y) < SkipDistance →
      (push (create [p]) q false).points.map Point.r = [max p.r q.r]) ∧
    (∀ p q : RawPoint, hypot (q.x - p.x) (q.y - p.y) < SkipDistance →
      (create [p, q]).points.map Point.r = [q.r]) := by
  refine ⟨?_, ?_, ?_⟩
  · intro s p b prev hl hsk
    rw [push_skip b hl hsk]
    exact ⟨rfl, by simp only [setLastF_length]⟩
  · intro p q h
    rw [create_single]
    rw [push_skip false (by rfl) (by simpa using h)]
    simp [setLastF]
  · intro p q h
    rw [create_two_skip p q h]
    simp

/-- Witness for C3: two points 3 units apart (below the threshold 4) pushed
in order leave one stored point with the max of the pressures. -/
theorem skip_fold_pressure_witness :
    hypot ((3 : ℝ) - 0) (0 - 0) < SkipDistance ∧
    (push (create [⟨0, 0, 1/2⟩]) ⟨3, 0, 3/4⟩ false).points.map Point.r =
      [max (1/2) (3/4)] :=
  ⟨by norm_num [hypot_x, SkipDistance],
   skip_fold_pressure.2.1 ⟨0, 0, 1/2⟩ ⟨3, 0, 3/4⟩ (by norm_num [hypot_x, SkipDistance])⟩

/-- C3 counterexample: via `Stroke.create`, two close points with pressures
`9/10` then `1/5` leave a single point with pressure `1/5`, not the claimed
`max` of the two input pressures (which is `9/10`). -/
theorem create_pressure_not_max :
    (create [⟨0, 0, 9/10⟩, ⟨1, 0, 1/5⟩]).points.map Point.r ≠
      [max (9/10 : ℝ) (1/5)] := by
  rw [create_two_skip ⟨0, 0, 9/10⟩ ⟨1, 0, 1/5⟩ (by norm_num [hypot_x, SkipDistance])]
  simp only [List.map_cons, List.map_nil]
  intro hcontra
  have h1 : (1/5 : ℝ) = max (9/10) (1/5) := by
    simpa using hcontra
  rw [max_eq_left (by norm_num)] at h1
  norm_num at h1

/-! ### C9: `empty` and `dot` queries -/

/-- C9: for every stroke, the `empty` query is true iff it holds zero points,
and the `dot` query is true iff it holds exactly one point (so a one-point
stroke is `dot` and not `empty`, since `1 ≠ 0`). -/
theorem emptyDot_iff (s : Stroke) :
    (Stroke.empty s = true ↔ s.points.length = 0) ∧
    (Stroke.dot s = true ↔ s.points.length = 1) := by
  constructor <;> simp [Stroke.empty, Stroke.dot]

/-! ### C7 and C10: `outline` on empty and one-point slices -/

theorem outline_eval (s : Stroke) (fromIdx : ℕ) (size : ℝ) :
    outline s fromIdx size =
      if 1 < (sliceJS s.points (if 0 < fromIdx then fromIdx - 1 else fromIdx)
          (s.sections.find? (fun e => decide (fromIdx < e)))).length
      then multiCase size (s.sections.find? (fun e => decide (fromIdx < e))).isNone
          (sliceJS s.points (if 0 < fromIdx then fromIdx - 1 else fromIdx)
            (s.sections.find? (fun e => decide (fromIdx < e))))
      else if (sliceJS s.points (if 0 < fromIdx then fromIdx - 1 else fromIdx)
          (s.sections.find? (fun e => decide (fromIdx < e)))).length = 1
      then dotCase (getP (sliceJS s.points (if 0 < fromIdx then fromIdx - 1 else fromIdx)
          (s.sections.find? (fun e => decide (fromIdx < e)))) 0) size
      else [] := rfl

theorem loopCountLe_0_2 : loopCountLe 0 (1 / 13) 2 = 27 := by
  unfold loopCountLe
  rw [if_pos (by norm_num)]
  have h : ((2 : ℝ) - 0) / (1 / 13) = ((26 : ℤ) : ℝ) := by norm_num
  rw [h, Int.floor_intCast]
  rfl

theorem dotCase_length (pt : Point) (size : ℝ) : (dotCase pt size).length = 27 := by
  unfold dotCase loopTsLe
  rw [List.length_map, List.length_map, List.length_range, loopCountLe_0_2]

theorem outline_single_slice {s : Stroke} {pt : Point} {fromIdx : ℕ} {size : ℝ}
    (hs : sliceJS s.points (if 0 < fromIdx then fromIdx - 1 else fromIdx)
      (s.sections.find? (fun e => decide (fromIdx < e))) = [pt]) :
    outline s fromIdx size = dotCase pt size := by
  rw [outline_eval, hs]
  simp [getP]

theorem vrot_sqdist (a c : Vec) (r : ℝ) :
    ((vrot a c r).x - c.x) ^ 2 + ((vrot a c r).y - c.y) ^ 2 =
      (a.x - c.x) ^ 2 + (a.y - c.y) ^ 2 := by
  unfold vrot
  simp only
  linear_combination ((a.x - c.x) ^ 2 + (a.y - c.y) ^ 2) * Real.sin_sq_add_cos_sq r

theorem dotCase_sqdist (pt : Point) (size : ℝ) :
    ∀ q ∈ dotCase pt size,
      (q.x - pt.p.x) ^ 2 + (q.y - pt.p.y) ^ 2 =
        (pt.v.x ^ 2 + pt.v.y ^ 2) * (size * DotSize * pt.r) ^ 2 := by
  intro q hq
  unfold dotCase at hq
  simp only [List.mem_map] at hq
  obtain ⟨t, _, rfl⟩ := hq
  rw [vrot_sqdist]
  unfold vproj vadd vmul vper vneg
  simp only
  ring

theorem slice_single {s : Stroke} {pt : Point} (h : s.points = [pt]) :
    sliceJS s.points (if 0 < 0 then 0 - 1 else 0)
      (s.sections.find? (fun e => decide ((0 : ℕ) < e))) = [pt] := by
  cases hf : s.sections.find? (fun e => decide ((0 : ℕ) < e)) with
  | none => simp [sliceJS, h]
  | some e =>
      have he := List.find?_some hf
      simp only [decide_eq_true_eq] at he
      simp only [sliceJS, h, if_neg (by omega : ¬ (0 : ℕ) < 0)]
      rw [List.take_of_length_le (by simp; omega)]
      simp

/-- C7 amended: `outline` on an empty stroke returns the empty sequence; on a
one-point stroke, `outline(0, size)` returns a circle-like polygon of **27**
vertices (the loop runs `t = 0, 1/13, …, 2`, i.e. 26 angular steps plus the
starting vertex), each at squared distance
`(v.x² + v.y²) · (size · DotSize · pressure)²` from the point — for a lone
point the direction is the dummy `(1, 1)`, so the radius carries an extra
`√2` factor over the claimed `size · DotSize · pressure`. -/
theorem outline_empty_and_dot :
    (∀ (s : Stroke) (fromIdx : ℕ) (size : ℝ), s.points = [] →
      outline s fromIdx size = []) ∧
    (∀ (s : Stroke) (size : ℝ) (pt : Point), s.points = [pt] →
      (outline s 0 size).length = 27 ∧
      ∀ q ∈ outline s 0 size,
        (q.x - pt.p.x) ^ 2 + (q.y - pt.p.y) ^ 2 =
          (pt.v.x ^ 2 + pt.v.y ^ 2) * (size * DotSize * pt.r) ^ 2) := by
  constructor
  · intro s fromIdx size h
    rw [outline_eval]
    have hs : sliceJS s.points (if 0 < fromIdx then fromIdx - 1 else fromIdx)
        (s.sections.find? (fun e => decide (fromIdx < e))) = [] := by
      cases s.sections.find? (fun e => decide (fromIdx < e)) <;> simp [sliceJS, h]
    rw [hs]
    simp
  · intro s size pt h
    rw [outline_single_slice (slice_single h)]
    exact ⟨dotCase_length pt size, dotCase_sqdist pt size⟩

/-- Witness for C7 at the one-point stroke `create [(0,0,1)]` with size 1. -/
theorem outline_empty_and_dot_witness :
    (create [⟨0, 0, 1⟩]).points = [⟨⟨0, 0⟩, 1, ⟨1, 1⟩, 0, 0⟩] ∧
    (outline (create [⟨0, 0, 1⟩]) 0 1).length = 27 :=
  ⟨by rw [create_single],
   (outline_empty_and_dot.2 (create [⟨0, 0, 1⟩]) 1 ⟨⟨0, 0⟩, 1, ⟨1, 1⟩, 0, 0⟩
     (by rw [create_single])).1⟩

/-- C7 counterexample: the dot polygon of a one-point stroke has 27 vertices,
not the claimed 26. -/
theorem dot_outline_count_ne_26 :
    (outline (create [⟨0, 0, 1⟩]) 0 1).length ≠ 26 := by
  have h : (create [⟨0, 0, 1⟩]).points = [⟨⟨0, 0⟩, 1, ⟨1, 1⟩, 0, 0⟩] := by
    rw [create_single]
  rw [outline_single_slice (slice_single h), dotCase_length]
  omega

theorem drop_pred_length (ps : List Point) (h : ps ≠ []) :
    ps.drop (ps.length - 1) = [getP ps (ps.length - 1)] := by
  induction ps with
  | nil => exact absurd rfl h
  | cons a t ih =>
      by_cases htne : t = []
      · subst htne; simp [getP]
      · have h1 : (a :: t).length - 1 = (t.length - 1) + 1 := by
          have : 0 < t.length := List.length_pos.mpr htne
          simp only [List.length_cons]
          omega
        rw [h1, List.drop_succ_cons, ih htne]
        have h2 : getP t (t.length - 1) = getP (a :: t) ((t.length - 1) + 1) := by
          simp [getP]
        rw [h2]

/-- C10: for a non-empty stroke (whose section boundaries are all indices of
stored points, as maintained by the engine), `outline(points.length, size)`
neither fails nor returns an empty sequence: the slice retains the single
point at index `points.length - 1` and the call returns the dot-case circle
around the stroke's last point. -/
theorem outline_past_end (s : Stroke) (size : ℝ)
    (hne : s.points ≠ [])
    (hsec : ∀ e ∈ s.sections, e < s.points.length) :
    outline s s.points.length size = dotCase (getP s.points (s.points.length - 1)) size ∧
    outline s s.points.length size ≠ [] := by
  have hpos : 0 < s.points.length := List.length_pos.mpr hne
  have hf : s.sections.find? (fun e => decide (s.points.length < e)) = none := by
    rw [List.find?_eq_none]
    intro e he
    simp only [decide_eq_true_eq]
    have := hsec e he
    omega
  have hs : sliceJS s.points
      (if 0 < s.points.length then s.points.length - 1 else s.points.length)
      (s.sections.find? (fun e => decide (s.points.length < e))) =
      [getP s.points (s.points.length - 1)] := by
    rw [hf, if_pos hpos]
    exact drop_pred_length s.points hne
  constructor
  · exact outline_single_slice hs
  · rw [outline_single_slice hs]
    intro hcontra
    have hlen := dotCase_length (getP s.points (s.points.length - 1)) size
    rw [hcontra] at hlen
    simp at hlen

/-- Witness for C10 at a concrete one-point stroke, `fromIdx = 1`. -/
theorem outline_past_end_witness :
    (create [⟨0, 0, 1/2⟩]).points ≠ [] ∧
    outline (create [⟨0, 0, 1/2⟩]) ((create [⟨0, 0, 1/2⟩]).points.length) 8 ≠ [] :=
  ⟨by rw [create_single]; simp,
   (outline_past_end (create [⟨0, 0, 1/2⟩]) 8
     (by rw [create_single]; simp)
     (by rw [create_single]; intro e he; simp only [List.mem_singleton] at he; subst he; simp)).2⟩

/-! ### C6: serialization round trip -/

theorem updateSections_points (s : Stroke) : (updateSections s).points = s.points := rfl

theorem updateSections_pending2 (s : Stroke) : (updateSections s).pending = s.pending := rfl

theorem mkStroke_points (ps : List Point) (len : ℝ) : (mkStroke ps len).points = ps := rfl

theorem createStep_keep {st : CreateSt} {curr : RawPoint}
    (h : ¬ st.clen + hypot (curr.x - st.prev.x) (curr.y - st.prev.y) - st.lastLen
        < SkipDistance) :
    createStep st curr =
      ⟨st.points ++ [⟨⟨curr.x, curr.y⟩, curr.r,
          vnorm (vsub ⟨st.prev.x, st.prev.y⟩ ⟨curr.x, curr.y⟩),
          hypot (curr.x - st.prev.x) (curr.y - st.prev.y),
          st.clen + hypot (curr.x - st.prev.x) (curr.y - st.prev.y)⟩],
        curr,
        st.clen + hypot (curr.x - st.prev.x) (curr.y - st.prev.y),
        st.clen + hypot (curr.x - st.prev.x) (curr.y - st.prev.y)⟩ := by
  unfold createStep
  simp only
  rw [if_neg h]

theorem create_two_keep (p q : RawPoint)
    (h : ¬ hypot (q.x - p.x) (q.y - p.y) < SkipDistance) :
    create [p, q] =
      ⟨[⟨⟨p.x, p.y⟩, p.r, ⟨1, 1⟩, 0, 0⟩,
        ⟨⟨q.x, q.y⟩, q.r, vnorm (vsub ⟨p.x, p.y⟩ ⟨q.x, q.y⟩),
          hypot (q.x - p.x) (q.y - p.y), hypot (q.x - p.x) (q.y - p.y)⟩],
        [0], [], hypot (q.x - p.x) (q.y - p.y)⟩ := by
  unfold create
  simp only [List.foldl_cons, List.foldl_nil]
  rw [createStep_keep (by simpa using h)]
  unfold mkStroke updateSections
  rw [if_neg (by simp), scan_stop (by simp)]
  simp

theorem create_far_points (rest : List RawPoint) :
    ∀ (prev : RawPoint) (ps : List Point) (L : ℝ),
      List.Chain' (fun a b : RawPoint =>
        SkipDistance ≤ hypot (b.x - a.x) (b.y - a.y)) (prev :: rest) →
      ((rest.foldl createStep ⟨ps, prev, L, L⟩).points.map
          (fun pt => (pt.p.x, pt.p.y, pt.r))) =
        ps.map (fun pt => (pt.p.x, pt.p.y, pt.r)) ++ rest.map (fun a => (a.x, a.y, a.r)) := by
  induction rest with
  | nil => intro prev ps L _; simp
  | cons curr rest' ih =>
      intro prev ps L hch
      have hfar : SkipDistance ≤ hypot (curr.x - prev.x) (curr.y - prev.y) :=
        (List.chain'_cons.mp hch).1
      have hch' := (List.chain'_cons.mp hch).2
      simp only [List.foldl_cons]
      rw [createStep_keep (by simp only; linarith)]
      rw [ih curr _ _ hch']
      simp

theorem create_of_far (raw : List RawPoint)
    (hch : List.Chain' (fun a b : RawPoint =>
      SkipDistance ≤ hypot (b.x - a.x) (b.y - a.y)) raw) :
    (create raw).points.map (fun pt => (pt.p.x, pt.p.y, pt.r)) =
      raw.map (fun a => (a.x, a.y, a.r)) := by
  cases raw with
  | nil => rw [create_nil]; rfl
  | cons p0 rest =>
      unfold create
      simp only [mkStroke_points]
      rw [create_far_points rest p0 _ 0 hch]
      simp

/-- C6 amended: the round trip `fromJSON(toJSON(s)).toJSON() = s.toJSON()`
holds whenever every two consecutive stored points of `s` are at least
`SkipDistance` apart in direct Euclidean distance (in particular for any
stroke built with no skipped candidates).  In general `create` re-applies the
skip policy to the serialized triples and can merge stored points whose
direct spacing is below the threshold, as the counterexample shows. -/
theorem roundtrip_toJSON (s : Stroke)
    (h : List.Chain' (fun a b : Point =>
      SkipDistance ≤ hypot (b.p.x - a.p.x) (b.p.y - a.p.y)) s.points) :
    toJSON (fromJSON (toJSON s)) = toJSON s := by
  unfold toJSON fromJSON
  have hmap : (s.points.map (fun pt => (pt.p.x, pt.p.y, pt.r))).map
      (fun a : ℝ × ℝ × ℝ => (⟨a.1, a.2.1, a.2.2⟩ : RawPoint)) =
      s.points.map (fun pt => (⟨pt.p.x, pt.p.y, pt.r⟩ : RawPoint)) := by
    rw [List.map_map]; rfl
  rw [hmap]
  rw [create_of_far _ ((List.chain'_map _).mpr (by simpa using h))]
  rw [List.map_map]
  rfl

/-- Witness for C6 at a two-point stroke whose points are 10 apart. -/
theorem roundtrip_toJSON_witness :
    List.Chain' (fun a b : Point =>
      SkipDistance ≤ hypot (b.p.x - a.p.x) (b.p.y - a.p.y))
      (create [⟨0, 0, 1/2⟩, ⟨10, 0, 1/2⟩]).points ∧
    toJSON (fromJSON (toJSON (create [⟨0, 0, 1/2⟩, ⟨10, 0, 1/2⟩]))) =
      toJSON (create [⟨0, 0, 1/2⟩, ⟨10, 0, 1/2⟩]) := by
  have hch : List.Chain' (fun a b : Point =>
      SkipDistance ≤ hypot (b.p.x - a.p.x) (b.p.y - a.p.y))
      (create [⟨0, 0, 1/2⟩, ⟨10, 0, 1/2⟩]).points := by
    rw [create_two_keep ⟨0, 0, 1/2⟩ ⟨10, 0, 1/2⟩ (by norm_num [hypot_x, SkipDistance])]
    simp only [List.chain'_cons, List.chain'_singleton, and_true]
    norm_num [hypot_x, SkipDistance]
  exact ⟨hch, roundtrip_toJSON _ hch⟩

theorem twoPushStroke_eq :
    push (push (create [⟨0, 0, 1/2⟩]) ⟨3, 0, 1/2⟩ false) ⟨7/2, 0, 1/2⟩ false =
      ⟨[⟨⟨0, 0⟩, 1/2, ⟨1, 1⟩, 0, 0⟩,
        ⟨⟨7/2, 0⟩, 1/2, vnorm (vsub ⟨0, 0⟩ ⟨7/2, 0⟩), 7/2, 13/2⟩], [0], [], 13/2⟩ := by
  have e1 : push (create [⟨0, 0, 1/2⟩]) ⟨3, 0, 1/2⟩ false =
      ⟨[⟨⟨0, 0⟩, 1/2, ⟨1, 1⟩, 0, 0⟩], [0], [], 3⟩ := by
    rw [create_single]
    rw [push_skip false (by rfl) (by norm_num [hypot_x, SkipDistance])]
    norm_num [setLastF, hypot_x]
  rw [e1]
  rw [push_keep false (by rfl) (by norm_num [hypot_x, SkipDistance, abs_of_nonneg])]
  show updateSections _ = _
  unfold updateSections
  rw [if_neg (by simp), scan_stop (by simp)]
  norm_num [hypot_x, abs_of_nonneg]

/-- C6 counterexample: a stroke with a skipped intermediate candidate retains
two points only `7/2 < SkipDistance` apart; serializing and rebuilding merges
them, so the round trip changes the serialized form. -/
theorem roundtrip_fails :
    toJSON (fromJSON (toJSON
        (push (push (create [⟨0, 0, 1/2⟩]) ⟨3, 0, 1/2⟩ false) ⟨7/2, 0, 1/2⟩ false))) ≠
      toJSON (push (push (create [⟨0, 0, 1/2⟩]) ⟨3, 0, 1/2⟩ false) ⟨7/2, 0, 1/2⟩ false) := by
  rw [twoPushStroke_eq]
  unfold toJSON fromJSON
  intro hcontra
  have hlen := congrArg List.length hcontra
  rw [List.length_map] at hlen
  rw [show ((⟨[⟨⟨0, 0⟩, 1/2, ⟨1, 1⟩, 0, 0⟩,
        ⟨⟨7/2, 0⟩, 1/2, vnorm (vsub ⟨0, 0⟩ ⟨7/2, 0⟩), 7/2, 13/2⟩], [0], [], 13/2⟩ : Stroke).points.map
      (fun pt => (pt.p.x, pt.p.y, pt.r))).map
      (fun a : ℝ × ℝ × ℝ => (⟨a.1, a.2.1, a.2.2⟩ : RawPoint)) =
      [⟨0, 0, 1/2⟩, ⟨7/2, 0, 1/2⟩] from by simp] at hlen
  rw [create_two_skip ⟨0, 0, 1/2⟩ ⟨7/2, 0, 1/2⟩
    (by norm_num [hypot_x, SkipDistance, abs_of_nonneg])] at hlen
  simp at hlen

/-! ### C5: section-boundary invariants -/

/-- The section invariant: the boundary list starts with `0`, is strictly
increasing, and every element is `0` or an index of a stored point. -/
def Inv (s : Stroke) : Prop :=
  s.sections.head? = some 0 ∧
  List.Chain' (· < ·) s.sections ∧
  ∀ i ∈ s.sections, i = 0 ∨ i < s.points.length

theorem scan_props (ps : List Point) (n : ℕ) : ∀ (i : ℕ) (acc : List ℕ),
    ps.length - i ≤ n →
    List.Chain' (· < ·) acc →
    (∀ x ∈ acc.getLast?, x < i) →
    ∃ extra : List ℕ,
      scanSections ps i acc = acc ++ extra ∧
      List.Chain' (· < ·) (acc ++ extra) ∧
      ∀ j ∈ extra, i ≤ j ∧ j < ps.length := by
  induction n with
  | zero =>
      intro i acc hn hch _
      have hstop : ¬ i < ps.length := by omega
      refine ⟨[], ?_, by simpa using hch, by simp⟩
      rw [scan_stop hstop]
      simp
  | succ n ih =>
      intro i acc hn hch hlast
      by_cases hi : i < ps.length
      · by_cases hc : (getP ps i).d < MinDistance ∧
            vdot (getP ps i).v (getP ps (i - 1)).v < 0
        · rw [scan_split hi hc]
          have hch' : List.Chain' (· < ·) (acc ++ [i]) := by
            rw [List.chain'_append]
            refine ⟨hch, List.chain'_singleton i, fun x hx y hy => ?_⟩
            simp only [List.head?_cons, Option.mem_def, Option.some.injEq] at hy
            subst hy
            exact hlast x hx
          have hlast' : ∀ x ∈ (acc ++ [i]).getLast?, x < i + CoolingDown + 1 := by
            intro x hx
            rw [List.getLast?_concat] at hx
            simp only [Option.mem_def, Option.some.injEq] at hx
            subst hx
            omega
          obtain ⟨extra, he, hch2, hj⟩ := ih (i + CoolingDown + 1) (acc ++ [i])
            (by omega) hch' hlast'
          refine ⟨i :: extra, ?_, ?_, ?_⟩
          · rw [he, List.append_assoc]
            rfl
          · rw [List.append_assoc] at hch2
            exact hch2
          · intro j hj2
            rcases List.mem_cons.mp hj2 with rfl | hmem
            · exact ⟨le_refl j, hi⟩
            · obtain ⟨ha, hb⟩ := hj j hmem
              exact ⟨by omega, hb⟩
        · rw [scan_skip hi hc]
          obtain ⟨extra, he, hch2, hj⟩ := ih (i + 1) acc (by omega) hch
            (fun x hx => Nat.lt_succ_of_lt (hlast x hx))
          exact ⟨extra, he, hch2, fun j hj2 =>
            ⟨Nat.le_of_succ_le (hj j hj2).1, (hj j hj2).2⟩⟩
      · refine ⟨[], ?_, by simpa using hch, by simp⟩
        rw [scan_stop hi]
        simp

theorem updateSections_inv {s : Stroke} (h : Inv s) : Inv (updateSections s) := by
  obtain ⟨hhead, hch, hmem⟩ := h
  have hne : s.sections ≠ [] := by
    intro hcontra
    rw [hcontra] at hhead
    simp at hhead
  have hlast : ∀ x ∈ s.sections.getLast?,
      x < (if 1 < s.sections.length then s.sections.getLastD 0 + CoolingDown else 2) := by
    intro x hx
    by_cases h1 : 1 < s.sections.length
    · rw [if_pos h1]
      have hgd : s.sections.getLastD 0 = x := by
        rw [List.getLastD_eq_getLast?, Option.mem_def.mp hx]
        rfl
      rw [hgd]
      have hcd : 0 < CoolingDown := by simp [CoolingDown]
      omega
    · rw [if_neg h1]
      have hs0 : s.sections = [0] := by
        cases hs : s.sections with
        | nil => exact absurd hs hne
        | cons a t =>
            rw [hs] at hhead h1
            simp only [List.head?_cons, Option.some.injEq] at hhead
            cases t with
            | nil => rw [hhead]
            | cons b t' =>
                exfalso
                apply h1
                simp only [List.length_cons]
                omega
      rw [hs0] at hx
      simp only [List.getLast?_singleton, Option.mem_def, Option.some.injEq] at hx
      omega
  obtain ⟨extra, he, hch2, hj⟩ := scan_props s.points s.points.length _ s.sections
    (by omega) hch hlast
  refine ⟨?_, ?_, ?_⟩
  · show (scanSections s.points _ s.sections).head? = some 0
    rw [he, List.head?_append_of_ne_nil _ hne, hhead]
  · show List.Chain' (· < ·) (scanSections s.points _ s.sections)
    rw [he]
    exact hch2
  · intro i hi
    show i = 0 ∨ i < s.points.length
    have hi2 : i ∈ scanSections s.points
        (if 1 < s.sections.length then s.sections.getLastD 0 + CoolingDown else 2)
        s.sections := hi
    rw [he] at hi2
    rcases List.mem_append.mp hi2 with hacc | hextra
    · exact hmem i hacc
    · exact Or.inr (hj i hextra).2

theorem inv_extend (s t : Stroke) (hsec : t.sections = s.sections)
    (hlen : s.points.length ≤ t.points.length) (h : Inv s) : Inv t := by
  obtain ⟨h1, h2, h3⟩ := h
  rw [Inv, hsec]
  exact ⟨h1, h2, fun i hi => (h3 i hi).imp id (fun hlt => lt_of_lt_of_le hlt hlen)⟩

theorem push_inv {s : Stroke} (p : RawPoint) (b : Bool) (h : Inv s) :
    Inv (push s p b) := by
  cases hl : s.points.getLast? with
  | none =>
      have hnil : s.points = [] := by
        cases hps : s.points with
        | nil => rfl
        | cons a t => rw [hps] at hl; simp at hl
      rw [push_first p b hnil]
      exact inv_extend s _ rfl (by rw [hnil]; simp) h
  | some prev =>
      by_cases hsk : s.length + hypot (p.x - prev.p.x) (p.y - prev.p.y) - prev.l
          < SkipDistance
      · rw [push_skip b hl hsk]
        exact inv_extend s _ rfl (by simp [setLastF_length]) h
      · rw [push_keep b hl hsk]
        cases b
        · exact updateSections_inv (inv_extend s _ rfl (by simp) h)
        · exact inv_extend s _ rfl (by simp) h

theorem pushAll_inv (raw : List RawPoint) : ∀ {s : Stroke}, Inv s → Inv (pushAll s raw) := by
  induction raw with
  | nil => intro s h; exact h
  | cons p rest ih =>
      intro s h
      show Inv (pushAll (push s p true) rest)
      exact ih (push_inv p true h)

theorem inv_pending {s : Stroke} (P : List (ℕ × List RawPoint)) (h : Inv s) :
    Inv { s with pending := P } := by
  obtain ⟨h1, h2, h3⟩ := h
  exact ⟨h1, h2, h3⟩

theorem insert_inv_aux (n : ℕ) : ∀ (s : Stroke) (fromIdx : ℕ) (raw : List RawPoint),
    s.pending.length ≤ n → Inv s → Inv (insert s fromIdx raw).1 := by
  induction n with
  | zero =>
      intro s fromIdx raw hp hinv
      rcases Nat.lt_trichotomy fromIdx s.points.length with hlt | heq | hgt
      · rw [insert_conflict raw hlt]; exact hinv
      · subst heq
        have hnilp : s.pending = [] := List.length_eq_zero.mp (Nat.le_zero.mp hp)
        have hlk : lookupPending (pushAll s raw).pending (pushAll s raw).points.length
            = none := by
          rw [pushAll_pending, hnilp]; rfl
        rw [insert_at_len raw hlk]
        exact updateSections_inv (pushAll_inv raw hinv)
      · rw [insert_buffer raw hgt]
        exact inv_pending _ hinv
  | succ n ih =>
      intro s fromIdx raw hp hinv
      rcases Nat.lt_trichotomy fromIdx s.points.length with hlt | heq | hgt
      · rw [insert_conflict raw hlt]; exact hinv
      · subst heq
        cases hlk : lookupPending (pushAll s raw).pending (pushAll s raw).points.length with
        | none =>
            rw [insert_at_len raw hlk]
            exact updateSections_inv (pushAll_inv raw hinv)
        | some raw2 =>
            rw [insert_at_len_flush raw hlk]
            apply ih
            · have h1 := erase_lt hlk
              have h2 : (pushAll s raw).pending.length = s.pending.length := by
                rw [pushAll_pending]
              simp only
              omega
            · exact inv_pending _ (pushAll_inv raw hinv)
      · rw [insert_buffer raw hgt]
        exact inv_pending _ hinv

theorem create_inv (raw : List RawPoint) : Inv (create raw) := by
  have hbase : ∀ (ps : List Point) (L : ℝ), Inv (mkStroke ps L) := by
    intro ps L
    exact updateSections_inv ⟨rfl, List.chain'_singleton 0, by simp⟩
  cases raw with
  | nil => exact hbase [] 0
  | cons p0 rest => exact hbase _ _

/-- The property of no direction reversal: every dot product of consecutive direction
vectors the section scan can examine (the scan starts at index 2) is
non-negative. -/
def NoRev (ps : List Point) : Prop :=
  ∀ i, 2 ≤ i → i < ps.length → 0 ≤ vdot (getP ps i).v (getP ps (i - 1)).v

theorem scan_noRev (ps : List Point) (n : ℕ) : ∀ (i : ℕ) (acc : List ℕ),
    ps.length - i ≤ n → 2 ≤ i → NoRev ps →
    scanSections ps i acc = acc := by
  induction n with
  | zero =>
      intro i acc hn _ _
      exact scan_stop (by omega)
  | succ n ih =>
      intro i acc hn h2 hnr
      by_cases hi : i < ps.length
      · have hc : ¬ ((getP ps i).d < MinDistance ∧
            vdot (getP ps i).v (getP ps (i - 1)).v < 0) := by
          rintro ⟨_, hneg⟩
          exact absurd hneg (not_lt.mpr (hnr i h2 hi))
        rw [scan_skip hi hc]
        exact ih (i + 1) acc (by omega) (by omega) hnr
      · exact scan_stop hi

theorem setLastF_map_v (l : List Point) (f : Point → Point)
    (hf : ∀ q, (f q).v = q.v) : (setLastF l f).map Point.v = l.map Point.v := by
  induction l with
  | nil => rfl
  | cons a t ih =>
      cases t with
      | nil => simp [setLastF, hf]
      | cons b t' =>
          show Point.v a :: (setLastF (b :: t') f).map Point.v = _
          rw [ih]
          rfl

theorem push_map_v (s : Stroke) (p : RawPoint) (b : Bool) :
    ∃ t, (push s p b).points.map Point.v = s.points.map Point.v ++ t := by
  cases hl : s.points.getLast? with
  | none =>
      have hnil : s.points = [] := by
        cases hps : s.points with
        | nil => rfl
        | cons a t => rw [hps] at hl; simp at hl
      rw [push_first p b hnil, hnil]
      exact ⟨[⟨1, 1⟩], by simp⟩
  | some prev =>
      by_cases hsk : s.length + hypot (p.x - prev.p.x) (p.y - prev.p.y) - prev.l
          < SkipDistance
      · rw [push_skip b hl hsk]
        refine ⟨[], ?_⟩
        show (setLastF s.points (fun q => { q with r := max q.r p.r })).map Point.v = _
        rw [setLastF_map_v s.points (fun q => { q with r := max q.r p.r }) (fun q => rfl)]
        simp
      · rw [push_keep b hl hsk]
        refine ⟨[vnorm (vsub prev.p ⟨p.x, p.y⟩)], ?_⟩
        cases b
        · show (s.points ++ _).map Point.v = _
          simp
        · show (s.points ++ _).map Point.v = _
          simp

theorem pushes_map_v (raw : List RawPoint) : ∀ s : Stroke,
    ∃ t, (plainPushes s raw).points.map Point.v = s.points.map Point.v ++ t := by
  induction raw with
  | nil => intro s; exact ⟨[], by simp [plainPushes]⟩
  | cons p rest ih =>
      intro s
      obtain ⟨t1, h1⟩ := push_map_v s p false
      obtain ⟨t2, h2⟩ := ih (push s p false)
      refine ⟨t1 ++ t2, ?_⟩
      show (plainPushes (push s p false) rest).points.map Point.v = _
      rw [h2, h1, List.append_assoc]

theorem map_v_getD (ps : List Point) : ∀ (i : ℕ), i < ps.length →
    (ps.map Point.v).getD i ⟨0, 0⟩ = (getP ps i).v := by
  induction ps with
  | nil => intro i hi; simp at hi
  | cons a t ih =>
      intro i hi
      cases i with
      | zero => rfl
      | succ j =>
          show (t.map Point.v).getD j ⟨0, 0⟩ = (getP (a :: t) (j + 1)).v
          rw [ih j (by simpa using hi)]
          simp [getP]

theorem getP_v_of_map {ps qs : List Point} {t : List Vec}
    (hmap : qs.map Point.v = ps.map Point.v ++ t) :
    ∀ {i : ℕ}, i < ps.length → (getP qs i).v = (getP ps i).v := by
  intro i hi
  have hlen : ps.length ≤ qs.length := by
    have hl := congrArg List.length hmap
    simp only [List.length_map, List.length_append] at hl
    omega
  have h1 : (qs.map Point.v).getD i ⟨0, 0⟩ = (ps.map Point.v).getD i ⟨0, 0⟩ := by
    rw [hmap, List.getD_append _ _ _ _ (by simpa using hi)]
  rw [map_v_getD qs i (lt_of_lt_of_le hi hlen), map_v_getD ps i hi] at h1
  exact h1

theorem noRev_mono {ps qs : List Point} {t : List Vec}
    (hmap : qs.map Point.v = ps.map Point.v ++ t) (h : NoRev qs) : NoRev ps := by
  intro i h2 hi
  have hlen : ps.length ≤ qs.length := by
    have hl := congrArg List.length hmap
    simp only [List.length_map, List.length_append] at hl
    omega
  have e1 := getP_v_of_map hmap hi
  have e2 := getP_v_of_map hmap (show i - 1 < ps.length by omega)
  rw [← e1, ← e2]
  exact h i h2 (lt_of_lt_of_le hi hlen)

theorem push_sections_noRev {s : Stroke} {p : RawPoint}
    (hs : s.sections = [0]) (hnr : NoRev ((push s p false).points)) :
    (push s p false).sections = [0] := by
  cases hl : s.points.getLast? with
  | none =>
      have hnil : s.points = [] := by
        cases hps : s.points with
        | nil => rfl
        | cons a t => rw [hps] at hl; simp at hl
      rw [push_first p false hnil]
      exact hs
  | some prev =>
      by_cases hsk : s.length + hypot (p.x - prev.p.x) (p.y - prev.p.y) - prev.l
          < SkipDistance
      · rw [push_skip false hl hsk]
        exact hs
      · rw [push_keep false hl hsk] at hnr ⊢
        show (updateSections _).sections = [0]
        unfold updateSections
        simp only [hs, List.length_singleton]
        rw [if_neg (by omega)]
        exact scan_noRev _ _ 2 [0] (le_refl _) (by omega) hnr

theorem straight_aux (raw : List RawPoint) : ∀ s : Stroke,
    s.sections = [0] →
    NoRev ((plainPushes s raw).points) →
    (plainPushes s raw).sections = [0] := by
  induction raw with
  | nil =>
      intro s hs _
      exact hs
  | cons p rest ih =>
      intro s hs hnr
      have hnr0 : NoRev ((plainPushes (push s p false) rest).points) := hnr
      have hnr1 : NoRev ((push s p false).points) := by
        obtain ⟨t, ht⟩ := pushes_map_v rest (push s p false)
        exact noRev_mono ht hnr0
      show (plainPushes (push s p false) rest).sections = [0]
      exact ih (push s p false) (push_sections_noRev hs hnr1) hnr0

/-- C5 amended: after creation and after every `push` or `insert`, `sections`
starts with `0` and is strictly increasing, and every element is `0` or an
index of a stored point (the leading `0` is present even when a stroke holds
no points — e.g. after an `insert` that only buffers — which is the one
amendment the counterexample forces); and for inputs with no direction
reversal among the stored points, `sections` stays exactly `[0]` under plain
pushes. -/
theorem sections_invariant :
    (∀ raw : List RawPoint, Inv (create raw)) ∧
    (∀ (s : Stroke) (p : RawPoint) (b : Bool), Inv s → Inv (push s p b)) ∧
    (∀ (s : Stroke) (fromIdx : ℕ) (raw : List RawPoint), Inv s →
      Inv (insert s fromIdx raw).1) ∧
    (∀ raw : List RawPoint, NoRev ((plainPushes (create []) raw).points) →
      (plainPushes (create []) raw).sections = [0]) :=
  ⟨create_inv,
   fun _ p b h => push_inv p b h,
   fun s fromIdx raw h => insert_inv_aux s.pending.length s fromIdx raw le_rfl h,
   fun raw hnr => straight_aux raw (create [])
     (by rw [create_nil]) hnr⟩

/-- Witness for C5 at concrete strokes: the invariant holds after creation,
after a push, and after a buffering insert; and a two-point straight-line
push sequence keeps `sections = [0]`. -/
theorem sections_invariant_witness :
    Inv (create [⟨0, 0, 1/2⟩]) ∧
    Inv (push (create [⟨0, 0, 1/2⟩]) ⟨10, 0, 1/2⟩ false) ∧
    Inv (insert (create [⟨0, 0, 1/2⟩]) 3 [⟨9, 9, 1⟩]).1 ∧
    (plainPushes (create []) [⟨0, 0, 1/2⟩]).sections = [0] := by
  have h1 : Inv (create [⟨0, 0, 1/2⟩]) := sections_invariant.1 _
  refine ⟨h1, sections_invariant.2.1 _ _ false h1, sections_invariant.2.2.1 _ 3 _ h1, ?_⟩
  apply sections_invariant.2.2.2
  intro i h2 hlt
  exfalso
  have hpts : (plainPushes (create []) [⟨0, 0, 1/2⟩]).points.length = 1 := by
    show (push (create []) ⟨0, 0, 1/2⟩ false).points.length = 1
    rw [create_nil]
    rw [push_first ⟨0, 0, 1/2⟩ false rfl]
    simp
  omega

/-- C5 counterexample: an `insert` of an empty batch on the empty stroke
leaves `sections = [0]` while zero points are stored, so "every element of
`sections` is an index of a stored point" fails after that call. -/
theorem sections_element_not_index :
    ¬ (∀ i ∈ (insert (create []) 0 []).1.sections,
        i < (insert (create []) 0 []).1.points.length) := by
  intro hcontra
  rw [create_nil] at hcontra
  have h1 : insert (⟨[], [0], [], 0⟩ : Stroke) 0 [] =
      (updateSections (pushAll ⟨[], [0], [], 0⟩ []), none) :=
    @insert_at_len ⟨[], [0], [], 0⟩ [] rfl
  rw [h1] at hcontra
  have h2 : (updateSections (pushAll (⟨[], [0], [], 0⟩ : Stroke) [])).sections = [0] := by
    show (updateSections ⟨[], [0], [], 0⟩).sections = [0]
    unfold updateSections
    rw [if_neg (by simp), scan_stop (by simp)]
  have h3 := hcontra 0 (by rw [show ((updateSections (pushAll (⟨[], [0], [], 0⟩ : Stroke) []),
      (none : Option String)).1.sections) = [0] from h2]; simp)
  rw [updateSections_points] at h3
  simp [pushAll] at h3

/-! ### C1: out-of-order insert, buffering, and the cascade -/

theorem hypot_eval {x y d : ℝ} (h : x ^ 2 + y ^ 2 = d ^ 2) (hd : 0 ≤ d) :
    hypot x y = d := by
  unfold hypot
  rw [h]
  exact Real.sqrt_sq hd

theorem push_keep_true {s : Stroke} {p : RawPoint} {prev : Point}
    (h : s.points.getLast? = some prev)
    (hge : ¬ s.length + hypot (p.x - prev.p.x) (p.y - prev.p.y) - prev.l < SkipDistance) :
    push s p true =
      { s with
        length := s.length + hypot (p.x - prev.p.x) (p.y - prev.p.y),
        points := s.points ++
          [⟨⟨p.x, p.y⟩, p.r, vnorm (vsub prev.p ⟨p.x, p.y⟩),
            hypot (p.x - prev.p.x) (p.y - prev.p.y),
            s.length + hypot (p.x - prev.p.x) (p.y - prev.p.y)⟩] } := by
  rw [push_keep true h hge]
  rfl

theorem push_keep_false {s : Stroke} {p : RawPoint} {prev : Point}
    (h : s.points.getLast? = some prev)
    (hge : ¬ s.length + hypot (p.x - prev.p.x) (p.y - prev.p.y) - prev.l < SkipDistance) :
    push s p false =
      updateSections
        { s with
          length := s.length + hypot (p.x - prev.p.x) (p.y - prev.p.y),
          points := s.points ++
            [⟨⟨p.x, p.y⟩, p.r, vnorm (vsub prev.p ⟨p.x, p.y⟩),
              hypot (p.x - prev.p.x) (p.y - prev.p.y),
              s.length + hypot (p.x - prev.p.x) (p.y - prev.p.y)⟩] } := by
  rw [push_keep false h hge]
  rfl

theorem insert_at_len' {s : Stroke} {L : ℕ} (hL : L = s.points.length)
    (raw : List RawPoint)
    (h : lookupPending (pushAll s raw).pending (pushAll s raw).points.length = none) :
    insert s L raw = (updateSections (pushAll s raw), none) := by
  subst hL
  exact insert_at_len raw h

theorem insert_at_len_flush' {s : Stroke} {L : ℕ} (hL : L = s.points.length)
    (raw : List RawPoint) {raw2 : List RawPoint}
    (h : lookupPending (pushAll s raw).pending (pushAll s raw).points.length = some raw2) :
    insert s L raw =
      insert
        { pushAll s raw with
          pending := erasePending (pushAll s raw).pending (pushAll s raw).points.length }
        (pushAll s raw).points.length raw2 := by
  subst hL
  exact insert_at_len_flush raw h

theorem push_pending_indep (s : Stroke) (P : List (ℕ × List RawPoint))
    (p : RawPoint) (b : Bool) :
    push { s with pending := P } p b = { push s p b with pending := P } := by
  cases hl : s.points.getLast? with
  | none =>
      have hnil : s.points = [] := by
        cases hps : s.points with
        | nil => rfl
        | cons a u => rw [hps] at hl; simp at hl
      rw [push_first p b (show ({ s with pending := P } : Stroke).points = [] from hnil),
        push_first p b hnil]
  | some prev =>
      have hl' : ({ s with pending := P } : Stroke).points.getLast? = some prev := hl
      by_cases hsk : s.length + hypot (p.x - prev.p.x) (p.y - prev.p.y) - prev.l
          < SkipDistance
      · rw [push_skip b hl' (by exact hsk), push_skip b hl hsk]
      · rw [push_keep b hl' (by exact hsk), push_keep b hl hsk]
        cases b
        · rfl
        · rfl

theorem pushAll_pending_indep (raw : List RawPoint) : ∀ (s : Stroke)
    (P : List (ℕ × List RawPoint)),
    pushAll { s with pending := P } raw = { pushAll s raw with pending := P } := by
  induction raw with
  | nil => intro s P; rfl
  | cons p rest ih =>
      intro s P
      show pushAll (push { s with pending := P } p true) rest = _
      rw [push_pending_indep]
      exact ih (push s p true) P

theorem stroke_set_pending_self {X : Stroke} (h : X.pending = []) :
    { X with pending := ([] : List (ℕ × List RawPoint)) } = X := by
  cases X with
  | mk a b c d =>
      simp only at h
      subst h
      rfl

theorem pushAll_append (s : Stroke) (raw1 raw2 : List RawPoint) :
    pushAll s (raw1 ++ raw2) = pushAll (pushAll s raw1) raw2 := by
  simp [pushAll, List.foldl_append]

theorem push_cross (s t : Stroke) (hp : s.points = t.points) (hL : s.length = t.length)
    (p : RawPoint) (b b' : Bool) :
    (push s p b).points = (push t p b').points ∧
    (push s p b).length = (push t p b').length := by
  cases hl : t.points.getLast? with
  | none =>
      have hnil_t : t.points = [] := by
        cases hps : t.points with
        | nil => rfl
        | cons a u => rw [hps] at hl; simp at hl
      have hnil_s : s.points = [] := by rw [hp, hnil_t]
      rw [push_first p b hnil_s, push_first p b' hnil_t]
      exact ⟨by simp [hp], by simp [hL]⟩
  | some prev =>
      have hls : s.points.getLast? = some prev := by rw [hp]; exact hl
      by_cases hsk : t.length + hypot (p.x - prev.p.x) (p.y - prev.p.y) - prev.l
          < SkipDistance
      · rw [push_skip b hls (by rw [hL]; exact hsk), push_skip b' hl hsk]
        exact ⟨by simp only; rw [hp], by simp only; rw [hL]⟩
      · rw [push_keep b hls (by rw [hL]; exact hsk), push_keep b' hl hsk]
        constructor
        · cases b <;> cases b' <;> simp [updateSections_points, hp, hL]
        · cases b <;> cases b' <;> simp [updateSections_length, hL]

theorem pushAll_plain_cross (raw : List RawPoint) : ∀ (s t : Stroke),
    s.points = t.points → s.length = t.length →
    (pushAll s raw).points = (plainPushes t raw).points ∧
    (pushAll s raw).length = (plainPushes t raw).length := by
  induction raw with
  | nil => intro s t hp hL; exact ⟨hp, hL⟩
  | cons p rest ih =>
      intro s t hp hL
      obtain ⟨h1, h2⟩ := push_cross s t hp hL p true false
      show (pushAll (push s p true) rest).points = (plainPushes (push t p false) rest).points ∧
        (pushAll (push s p true) rest).length = (plainPushes (push t p false) rest).length
      exact ih (push s p true) (push t p false) h1 h2

theorem insert_cascade (s : Stroke) (raw1 raw2 : List RawPoint) (N : ℕ)
    (hpend : s.pending = [])
    (hN : s.points.length < N)
    (hfill : (pushAll s raw1).points.length = N) :
    (insert ((insert s N raw2).1) s.points.length raw1).1 =
      (insert s s.points.length (raw1 ++ raw2)).1 := by
  rw [insert_buffer raw2 hN]
  have hset : setPending s N raw2 = { s with pending := [(N, raw2)] } := by
    unfold setPending erasePending
    rw [hpend]
    rfl
  show (insert (setPending s N raw2) s.points.length raw1).1 = _
  rw [hset]
  have hpa : pushAll { s with pending := [(N, raw2)] } raw1 =
      { pushAll s raw1 with pending := [(N, raw2)] } := pushAll_pending_indep raw1 s _
  have hlen2 : ({ pushAll s raw1 with pending := [(N, raw2)] } : Stroke).points.length
      = N := by simp only; exact hfill
  have hlk : lookupPending (pushAll { s with pending := [(N, raw2)] } raw1).pending
      (pushAll { s with pending := [(N, raw2)] } raw1).points.length = some raw2 := by
    rw [hpa, hlen2]
    simp [lookupPending]
  rw [insert_at_len_flush' rfl raw1 hlk]
  rw [hpa, hlen2]
  have herase : erasePending
      (({ pushAll s raw1 with pending := [(N, raw2)] } : Stroke).pending) N = [] := by
    simp [erasePending]
  rw [herase]
  have hback : ({ ({ pushAll s raw1 with pending := [(N, raw2)] } : Stroke) with
      pending := ([] : List (ℕ × List RawPoint)) } : Stroke) = pushAll s raw1 := by
    have hc : (pushAll s raw1).pending = [] := by rw [pushAll_pending, hpend]
    cases hps : pushAll s raw1 with
    | mk a b c d =>
        rw [hps] at hc
        simp only at hc
        show Stroke.mk a b [] d = Stroke.mk a b c d
        rw [hc]
  rw [hback]
  have hA : lookupPending (pushAll (pushAll s raw1) raw2).pending
      (pushAll (pushAll s raw1) raw2).points.length = none := by
    rw [pushAll_pending, pushAll_pending, hpend]
    rfl
  rw [insert_at_len' hfill.symm raw2 hA]
  have hB : lookupPending (pushAll s (raw1 ++ raw2)).pending
      (pushAll s (raw1 ++ raw2)).points.length = none := by
    rw [pushAll_pending, hpend]
    rfl
  rw [insert_at_len' rfl (raw1 ++ raw2) hB]
  rw [pushAll_append]

/-- C1 amended: inserting a batch at `N > points.length` buffers it in
`pending` under key `N`; once an insert at the current `points.length` fills
the gap exactly, the cascade flushes the buffered batch and the resulting
stroke (points AND sections) is identical to a single in-order `insert` of
the concatenated batches; and an in-order `insert` produces exactly the same
point list as pushing all its points one by one with `push`.  (Sections of
the cascade can nevertheless differ from the per-point `push` sequence, as
the counterexample records, because the batch scan resumes two indices after
a split while a fresh per-push scan resumes one index after it.) -/
theorem insert_buffering_cascade :
    (∀ (s : Stroke) (N : ℕ) (raw : List RawPoint), s.points.length < N →
      insert s N raw = (setPending s N raw, none) ∧
      lookupPending (setPending s N raw).pending N = some raw) ∧
    (∀ (s : Stroke) (raw1 raw2 : List RawPoint) (N : ℕ),
      s.pending = [] → s.points.length < N → (pushAll s raw1).points.length = N →
      (insert ((insert s N raw2).1) s.points.length raw1).1 =
        (insert s s.points.length (raw1 ++ raw2)).1) ∧
    (∀ (s : Stroke) (raw : List RawPoint), s.pending = [] →
      (insert s s.points.length raw).1.points = (plainPushes s raw).points) := by
  refine ⟨?_, insert_cascade, ?_⟩
  · intro s N raw hN
    refine ⟨insert_buffer raw hN, ?_⟩
    simp [setPending, lookupPending]
  · intro s raw hpend
    have hlk : lookupPending (pushAll s raw).pending (pushAll s raw).points.length
        = none := by
      rw [pushAll_pending, hpend]
      rfl
    rw [insert_at_len' rfl raw hlk]
    rw [updateSections_points]
    exact (pushAll_plain_cross raw s s rfl rfl).1

/-- Witness for C1: buffering at index 2 on a fresh stroke, then filling the
gap with two points 10 apart, equals the single ordered insert of all three
points. -/
theorem insert_buffering_cascade_witness :
    (create []).pending = [] ∧
    (pushAll (create []) [⟨0, 0, 1/2⟩, ⟨10, 0, 1/2⟩]).points.length = 2 ∧
    (insert ((insert (create []) 2 [⟨20, 0, 1/2⟩]).1) ((create []).points.length)
        [⟨0, 0, 1/2⟩, ⟨10, 0, 1/2⟩]).1 =
      (insert (create []) ((create []).points.length)
        ([⟨0, 0, 1/2⟩, ⟨10, 0, 1/2⟩] ++ [⟨20, 0, 1/2⟩])).1 := by
  have hpend : (create []).pending = [] := by rw [create_nil]
  have hfill : (pushAll (create []) [⟨0, 0, 1/2⟩, ⟨10, 0, 1/2⟩]).points.length = 2 := by
    rw [create_nil]
    show (push (push ⟨[], [0], [], 0⟩ ⟨0, 0, 1/2⟩ true) ⟨10, 0, 1/2⟩ true).points.length = 2
    rw [push_first ⟨0, 0, 1/2⟩ true rfl]
    rw [push_keep_true (by rfl) (by
      rw [hypot_eval (by norm_num) (by norm_num : (0:ℝ) ≤ 10)]
      norm_num [SkipDistance])]
    simp
  exact ⟨hpend, hfill,
    insert_buffering_cascade.2.1 (create []) [⟨0, 0, 1/2⟩, ⟨10, 0, 1/2⟩] [⟨20, 0, 1/2⟩] 2
      hpend (by rw [create_nil]; simp) hfill⟩

/-! #### Concrete zigzag evaluation for the C1 counterexample -/

theorem sqrt_100 : Real.sqrt 100 = 10 := by
  rw [show (100 : ℝ) = 10 ^ 2 by norm_num]
  exact Real.sqrt_sq (by norm_num)

theorem vnorm_eval (a : Vec) (d : ℝ) (h : a.x ^ 2 + a.y ^ 2 = d ^ 2) (hd : 0 ≤ d) :
    vnorm a = ⟨a.x / d, a.y / d⟩ := by
  unfold vnorm
  rw [hypot_eval h hd]

theorem vnorm_m10 : vnorm (vsub ⟨0, 0⟩ ⟨10, 0⟩) = ⟨-1, 0⟩ := by
  rw [show vsub (⟨0, 0⟩ : Vec) ⟨10, 0⟩ = ⟨-10, 0⟩ from by unfold vsub; norm_num]
  rw [vnorm_eval ⟨-10, 0⟩ 10 (by norm_num) (by norm_num)]
  norm_num

theorem vnorm_p10 : vnorm (vsub ⟨10, 0⟩ ⟨0, 0⟩) = ⟨1, 0⟩ := by
  rw [show vsub (⟨10, 0⟩ : Vec) ⟨0, 0⟩ = ⟨10, 0⟩ from by unfold vsub; norm_num]
  rw [vnorm_eval ⟨10, 0⟩ 10 (by norm_num) (by norm_num)]
  norm_num

/-- Zigzag input sample at the origin. -/
noncomputable def rawA : RawPoint := ⟨0, 0, 1/2⟩

/-- Zigzag input sample 10 units to the right. -/
noncomputable def rawB : RawPoint := ⟨10, 0, 1/2⟩

/-- Expected stored points of the zigzag `rawA, rawB, rawA, rawB, rawA`. -/
noncomputable def zp0 : Point := ⟨⟨0, 0⟩, 1/2, ⟨1, 1⟩, 0, 0⟩

noncomputable def zp1 : Point := ⟨⟨10, 0⟩, 1/2, ⟨-1, 0⟩, 10, 10⟩

noncomputable def zp2 : Point := ⟨⟨0, 0⟩, 1/2, ⟨1, 0⟩, 10, 20⟩

noncomputable def zp3 : Point := ⟨⟨10, 0⟩, 1/2, ⟨-1, 0⟩, 10, 30⟩

noncomputable def zp4 : Point := ⟨⟨0, 0⟩, 1/2, ⟨1, 0⟩, 10, 40⟩

theorem zstep1 (b : Bool) : push (⟨[], [0], [], 0⟩ : Stroke) rawA b = ⟨[zp0], [0], [], 0⟩ := by
  rw [push_first rawA b rfl]
  norm_num [rawA, zp0]

theorem zstep2 : push (⟨[zp0], [0], [], 0⟩ : Stroke) rawB false = ⟨[zp0, zp1], [0], [], 10⟩ := by
  calc push (⟨[zp0], [0], [], 0⟩ : Stroke) rawB false
      = updateSections ⟨[zp0, zp1], [0], [], 10⟩ := by
        rw [push_keep_false (by rfl) (by norm_num [rawB, zp0, hypot, sqrt_100, SkipDistance])]
        congr 1
        norm_num [rawB, zp0, zp1, hypot, sqrt_100, vnorm_m10]
    _ = ⟨[zp0, zp1], [0], [], 10⟩ := by
        unfold updateSections
        rw [if_neg (by simp), scan_stop (by simp)]

theorem zstep3 :
    push (⟨[zp0, zp1], [0], [], 10⟩ : Stroke) rawA false = ⟨[zp0, zp1, zp2], [0, 2], [], 20⟩ := by
  calc push (⟨[zp0, zp1], [0], [], 10⟩ : Stroke) rawA false
      = updateSections ⟨[zp0, zp1, zp2], [0], [], 20⟩ := by
        rw [push_keep_false (by rfl) (by norm_num [rawA, zp1, hypot, sqrt_100, SkipDistance])]
        congr 1
        norm_num [rawA, zp1, zp2, hypot, sqrt_100, vnorm_p10]
    _ = ⟨[zp0, zp1, zp2], [0, 2], [], 20⟩ := by
        unfold updateSections
        rw [if_neg (by simp)]
        rw [scan_split (by simp)
          (by constructor <;> norm_num [getP, zp1, zp2, vdot, MinDistance])]
        rw [scan_stop (by simp [CoolingDown])]
        simp

theorem zstep4 :
    push (⟨[zp0, zp1, zp2], [0, 2], [], 20⟩ : Stroke) rawB false =
      ⟨[zp0, zp1, zp2, zp3], [0, 2, 3], [], 30⟩ := by
  calc push (⟨[zp0, zp1, zp2], [0, 2], [], 20⟩ : Stroke) rawB false
      = updateSections ⟨[zp0, zp1, zp2, zp3], [0, 2], [], 30⟩ := by
        rw [push_keep_false (by rfl) (by norm_num [rawB, zp2, hypot, sqrt_100, SkipDistance])]
        congr 1
        norm_num [rawB, zp2, zp3, hypot, sqrt_100, vnorm_m10]
    _ = ⟨[zp0, zp1, zp2, zp3], [0, 2, 3], [], 30⟩ := by
        unfold updateSections
        rw [if_pos (by simp)]
        rw [show ([0, 2] : List ℕ).getLastD 0 + CoolingDown = 3 from rfl]
        rw [scan_split (by simp)
          (by constructor <;> norm_num [getP, zp2, zp3, vdot, MinDistance])]
        rw [scan_stop (by simp [CoolingDown])]
        simp

theorem zstep5 :
    push (⟨[zp0, zp1, zp2, zp3], [0, 2, 3], [], 30⟩ : Stroke) rawA false =
      ⟨[zp0, zp1, zp2, zp3, zp4], [0, 2, 3, 4], [], 40⟩ := by
  calc push (⟨[zp0, zp1, zp2, zp3], [0, 2, 3], [], 30⟩ : Stroke) rawA false
      = updateSections ⟨[zp0, zp1, zp2, zp3, zp4], [0, 2, 3], [], 40⟩ := by
        rw [push_keep_false (by rfl) (by norm_num [rawA, zp3, hypot, sqrt_100, SkipDistance])]
        congr 1
        norm_num [rawA, zp3, zp4, hypot, sqrt_100, vnorm_p10]
    _ = ⟨[zp0, zp1, zp2, zp3, zp4], [0, 2, 3, 4], [], 40⟩ := by
        unfold updateSections
        rw [if_pos (by simp)]
        rw [show ([0, 2, 3] : List ℕ).getLastD 0 + CoolingDown = 4 from rfl]
        rw [scan_split (by simp)
          (by constructor <;> norm_num [getP, zp3, zp4, vdot, MinDistance])]
        rw [scan_stop (by simp [CoolingDown])]
        simp

theorem scenarioA_sections :
    (plainPushes (create []) [rawA, rawB, rawA, rawB, rawA]).sections = [0, 2, 3, 4] := by
  show (push (push (push (push (push (create []) rawA false) rawB false) rawA false)
    rawB false) rawA false).sections = _
  rw [create_nil, zstep1 false, zstep2, zstep3, zstep4, zstep5]

theorem bstep2 : push (⟨[zp0], [0], [], 0⟩ : Stroke) rawB true = ⟨[zp0, zp1], [0], [], 10⟩ := by
  rw [push_keep_true (by rfl) (by norm_num [rawB, zp0, hypot, sqrt_100, SkipDistance])]
  norm_num [rawB, zp0, zp1, hypot, sqrt_100, vnorm_m10]

theorem bstep3 :
    push (⟨[zp0, zp1], [0], [], 10⟩ : Stroke) rawA true = ⟨[zp0, zp1, zp2], [0], [], 20⟩ := by
  rw [push_keep_true (by rfl) (by norm_num [rawA, zp1, hypot, sqrt_100, SkipDistance])]
  norm_num [rawA, zp1, zp2, hypot, sqrt_100, vnorm_p10]

theorem bstep4 :
    push (⟨[zp0, zp1, zp2], [0], [], 20⟩ : Stroke) rawB true =
      ⟨[zp0, zp1, zp2, zp3], [0], [], 30⟩ := by
  rw [push_keep_true (by rfl) (by norm_num [rawB, zp2, hypot, sqrt_100, SkipDistance])]
  norm_num [rawB, zp2, zp3, hypot, sqrt_100, vnorm_m10]

theorem bstep5 :
    push (⟨[zp0, zp1, zp2, zp3], [0], [], 30⟩ : Stroke) rawA true =
      ⟨[zp0, zp1, zp2, zp3, zp4], [0], [], 40⟩ := by
  rw [push_keep_true (by rfl) (by norm_num [rawA, zp3, hypot, sqrt_100, SkipDistance])]
  norm_num [rawA, zp3, zp4, hypot, sqrt_100, vnorm_p10]

theorem bpush2 : pushAll (⟨[], [0], [], 0⟩ : Stroke) [rawA, rawB] = ⟨[zp0, zp1], [0], [], 10⟩ := by
  show push (push (⟨[], [0], [], 0⟩ : Stroke) rawA true) rawB true = _
  rw [zstep1 true, bstep2]

theorem bpushRest : pushAll (⟨[zp0, zp1], [0], [], 10⟩ : Stroke) [rawA, rawB, rawA] =
    ⟨[zp0, zp1, zp2, zp3, zp4], [0], [], 40⟩ := by
  show push (push (push (⟨[zp0, zp1], [0], [], 10⟩ : Stroke) rawA true) rawB true) rawA true = _
  rw [bstep3, bstep4, bstep5]

theorem scenarioB_sections :
    ((insert ((insert (create []) 2 [rawA, rawB, rawA]).1) 0 [rawA, rawB]).1).sections
      = [0, 2, 4] := by
  rw [create_nil]
  rw [insert_buffer [rawA, rawB, rawA] (by simp)]
  show (insert (⟨[], [0], [(2, [rawA, rawB, rawA])], 0⟩ : Stroke) 0 [rawA, rawB]).1.sections = _
  have hpa : pushAll (⟨[], [0], [(2, [rawA, rawB, rawA])], 0⟩ : Stroke) [rawA, rawB] =
      ⟨[zp0, zp1], [0], [(2, [rawA, rawB, rawA])], 10⟩ := by
    rw [show (⟨[], [0], [(2, [rawA, rawB, rawA])], 0⟩ : Stroke) =
        { (⟨[], [0], [], 0⟩ : Stroke) with pending := [(2, [rawA, rawB, rawA])] } from rfl]
    rw [pushAll_pending_indep]
    rw [bpush2]
  rw [@insert_at_len_flush' ⟨[], [0], [(2, [rawA, rawB, rawA])], 0⟩ 0 rfl [rawA, rawB]
    [rawA, rawB, rawA] (by rw [hpa]; rfl)]
  rw [hpa]
  show (insert (⟨[zp0, zp1], [0], [], 10⟩ : Stroke) 2 [rawA, rawB, rawA]).1.sections = _
  rw [@insert_at_len' ⟨[zp0, zp1], [0], [], 10⟩ 2 rfl [rawA, rawB, rawA]
    (by rw [pushAll_pending]; rfl)]
  show (updateSections (pushAll (⟨[zp0, zp1], [0], [], 10⟩ : Stroke) [rawA, rawB, rawA])).sections = _
  rw [bpushRest]
  unfold updateSections
  rw [if_neg (by simp)]
  rw [scan_split (by simp)
    (by constructor <;> norm_num [getP, zp1, zp2, vdot, MinDistance])]
  rw [show (2 + CoolingDown + 1 : ℕ) = 4 from rfl]
  rw [scan_split (by simp)
    (by constructor <;> norm_num [getP, zp3, zp4, vdot, MinDistance])]
  rw [scan_stop (by simp [CoolingDown])]
  simp

/-- C1 counterexample: the same five zigzag samples ingested (i) by plain
`push` in ascending order and (ii) by an out-of-order `insert` at index 2
followed by the gap-filling insert at index 0, end up with DIFFERENT section
boundaries: `[0, 2, 3, 4]` versus `[0, 2, 4]`.  The claimed identity of
section boundaries with the fully-ordered push sequence fails. -/
theorem cascade_vs_push_differ :
    (plainPushes (create []) [rawA, rawB, rawA, rawB, rawA]).sections = [0, 2, 3, 4] ∧
    ((insert ((insert (create []) 2 [rawA, rawB, rawA]).1) 0 [rawA, rawB]).1).sections
      = [0, 2, 4] :=
  ⟨scenarioA_sections, scenarioB_sections⟩

/-! ### C8: `outline` is read-only and idempotent -/

/-- C8: `outline` is read-only with respect to the stroke state (the state
after a call is the state before it, captured by the stateful reading
`outlineRun` whose only writes in the source hit local copies), and two calls
in a row with the same arguments and no intervening mutation return identical
outlines. -/
theorem outline_readonly_idempotent (s : Stroke) (fromIdx : ℕ) (size : ℝ) :
    (outlineRun s fromIdx size).2 = s ∧
    (outlineRun ((outlineRun s fromIdx size).2) fromIdx size).1 =
      (outlineRun s fromIdx size).1 :=
  ⟨rfl, rfl⟩

end Ink
